import Mathlib

/-! Shallow embedding of `src/fast-lookup.js`: the `LRU` cache, the
`BloomFilter`, and the `FastLookup` cascade coordinator.

Modelling conventions:
* JavaScript `Map`s become insertion-ordered association lists and `Set`s
  become duplicate-free lists; `Set.add` is `List.insert` and
  `Set.delete` / `Map.delete` remove every entry with the key, which
  coincides with the JavaScript behaviour because keys are unique in every
  state a `Map`/`Set` can represent.
* The SHA-256 digest read as a 32-bit big-endian integer is an
  uninterpreted pure function `digest : String → Nat`; the source reduces
  it `% size` afterwards, which the model keeps.
* `Math.random()` inside the mock backing store is an explicit rational
  oracle `q`, `new Date().toISOString()` is an explicit `now` argument,
  and the simulated network delay (wall-clock time) is not modelled.
* The `await this.fetchFromIndex(hash)` call sites inside `get` are
  modelled by passing the awaited outcome explicitly: `Except.ok v` for a
  promise resolving to `v`, `Except.error e` for a rejection, which the
  catch-less `try`/`finally` block of `get` propagates unchanged.
* `numHashes = Math.ceil(-Math.log2(falsePositiveRate))` is a one-off
  floating-point computation at construction time; the model takes the
  resulting hash count directly as a constructor argument.
* The `performance.now()` statistics field `totalTime` is wall-clock time
  and is left out of the model; all integer counters are kept.
-/

/-- A registry record: the mock store fabricates these and
`FastLookup.add` stores caller-provided ones (`hash`, `source`, `wasm`,
`created` fields of the object literal in `fetchFromIndex`). -/
structure Record where
  hash : String
  source : String
  wasm : String
  created : String
deriving DecidableEq, Repr

instance {ε α : Type} [DecidableEq ε] [DecidableEq α] : DecidableEq (Except ε α) :=
  fun x y =>
    match x, y with
    | .error a, .error b => decidable_of_iff (a = b) (by simp)
    | .ok a, .ok b => decidable_of_iff (a = b) (by simp)
    | .error _, .ok _ => isFalse (by simp)
    | .ok _, .error _ => isFalse (by simp)

/-- Class `LRU`: a `maxSize` bound plus an insertion-ordered map from keys
to values. A stored value may itself be `none`, mirroring JavaScript code
storing `null` in the `Map`. -/
structure LRU where
  maxSize : Nat
  cache : List (String × Option Record)
deriving DecidableEq, Repr

/-- `LRU.prototype.has`. -/
def LRU.has (l : LRU) (k : String) : Bool :=
  l.cache.any (fun p => p.1 == k)

/-- `LRU.prototype.get`: the stored value (`none` on a miss, exactly like
the returned `null`) together with the cache in which the entry has been
moved to the most-recently-used end. -/
def LRU.get (l : LRU) (k : String) : Option Record × LRU :=
  match l.cache.find? (fun p => p.1 == k) with
  | none => (none, l)
  | some p =>
    (p.2, { l with cache := (l.cache.filter (fun q => q.1 != k)) ++ [(k, p.2)] })

/-- `LRU.prototype.set`: delete an existing entry for the key, otherwise
evict the oldest (first) entry when at capacity, then append the new entry
at the most-recently-used end. Deleting the first key of an empty map is a
no-op (`tail [] = []`), like `Map.delete(undefined)`. -/
def LRU.set (l : LRU) (k : String) (v : Option Record) : LRU :=
  let c :=
    if l.cache.any (fun p => p.1 == k) then l.cache.filter (fun p => p.1 != k)
    else if l.maxSize ≤ l.cache.length then l.cache.tail
    else l.cache
  { l with cache := c ++ [(k, v)] }

/-- Class `BloomFilter`: the bit array is a `Uint8Array` of `⌈size/8⌉`
bytes, modelled as a list of naturals below 256. -/
structure BloomFilter where
  size : Nat
  numHashes : Nat
  bits : List Nat
  itemCount : Nat
deriving DecidableEq, Repr

/-- `new BloomFilter(size, falsePositiveRate)`; `numHashes` is the
already-computed `Math.ceil(-Math.log2(falsePositiveRate))`. -/
def mkBloomFilter (size numHashes : Nat) : BloomFilter :=
  { size := size, numHashes := numHashes
    bits := List.replicate ((size + 7) / 8) 0, itemCount := 0 }

/-- `BloomFilter.prototype._hash`: SHA-256 of `item + seed.toString()`,
first 32 bits, reduced `% size`; the digest is the uninterpreted
`digest`. -/
def BloomFilter.hashIdx (digest : String → Nat) (bf : BloomFilter)
    (item : String) (seed : Nat) : Nat :=
  digest (item ++ toString seed) % bf.size

/-- One `this.bits[byteIndex] |= (1 << bitIndex)` step of `add`. An
out-of-range byte index writes nothing, like a `Uint8Array`. -/
def bitsSet (bits : List Nat) (index : Nat) : List Nat :=
  bits.set (index / 8) (bits.getD (index / 8) 0 ||| (1 <<< (index % 8)))

/-- One `this.bits[byteIndex] & (1 << bitIndex)` truthiness test of
`mightContain`; an out-of-range read is falsy, like `undefined & mask`. -/
def bitsGet (bits : List Nat) (index : Nat) : Bool :=
  (bits.getD (index / 8) 0).testBit (index % 8)

/-- `BloomFilter.prototype.add`. -/
def BloomFilter.add (digest : String → Nat) (bf : BloomFilter) (item : String) :
    BloomFilter :=
  { bf with
    bits := (List.range bf.numHashes).foldl
      (fun bs i => bitsSet bs (bf.hashIdx digest item i)) bf.bits
    itemCount := bf.itemCount + 1 }

/-- `BloomFilter.prototype.mightContain`: false as soon as one probed bit
is unset, true when all `numHashes` probes are set. -/
def BloomFilter.mightContain (digest : String → Nat) (bf : BloomFilter)
    (item : String) : Bool :=
  (List.range bf.numHashes).all (fun i => bitsGet bf.bits (bf.hashIdx digest item i))

/-- The integer counters of `this.stats` (`totalTime` is wall-clock time,
outside the model). -/
structure Stats where
  lookups : Nat
  hotHits : Nat
  negativeHits : Nat
  sieveHits : Nat
  bloomHits : Nat
  fetches : Nat
  notFound : Nat
deriving DecidableEq, Repr

def Stats.init : Stats := ⟨0, 0, 0, 0, 0, 0, 0⟩

/-- Class `FastLookup`: hot cache, Bloom filter, the two existence sets,
the mock backing index and the statistics counters. -/
structure FastLookup where
  hotCache : LRU
  bloom : BloomFilter
  sieve : List String
  negative : List String
  index : List (String × Record)
  stats : Stats
deriving DecidableEq, Repr

/-- `new FastLookup(options)`: `options.cacheSize || 10000` and
`options.bloomSize || 100000` (a zero argument is falsy and falls back to
the default); `numHashes` stands for the hash count derived from
`options.fpr || 0.001`. -/
def mkFastLookup (cacheSize bloomSize numHashes : Nat) : FastLookup :=
  { hotCache := ⟨if cacheSize = 0 then 10000 else cacheSize, []⟩
    bloom := mkBloomFilter (if bloomSize = 0 then 100000 else bloomSize) numHashes
    sieve := [], negative := [], index := [], stats := Stats.init }

/-- `FastLookup.prototype.fetchFromIndex`: after the simulated delay, an
index hit returns the stored record; otherwise `Math.random() < 0.1`
(draw `q`) yields `null`, else a fabricated mock record (the base64 of
`mock-wasm`) timestamped `now`. -/
def FastLookup.fetchFromIndex (s : FastLookup) (q : ℚ) (now : String)
    (hash : String) : Option Record :=
  match s.index.find? (fun p => p.1 == hash) with
  | some p => some p.2
  | none =>
    if q < 1/10 then none
    else some { hash := hash, source := "// Function " ++ hash
                wasm := "bW9jay13YXNt", created := now }

/-- Outcome of one `FastLookup.prototype.get` call: the value returned to
the caller (or the propagated rejection), the post-call state, and
whether `fetchFromIndex` was invoked. -/
structure GetResult where
  result : Except String (Option Record)
  state : FastLookup
  fetched : Bool
deriving DecidableEq, Repr

/-- `FastLookup.prototype.get`; `fr` is the awaited outcome of the (at
most one) `fetchFromIndex` call on this code path, `Except.error`
standing for a rejected promise, which the catch-less `try`/`finally`
propagates to the caller after the statistics update. -/
def FastLookup.get (digest : String → Nat) (s : FastLookup) (hash : String)
    (fr : Except String (Option Record)) : GetResult :=
  let s := { s with stats := { s.stats with lookups := s.stats.lookups + 1 } }
  if s.hotCache.has hash then
    let r := s.hotCache.get hash
    { result := .ok r.1
      state := { s with hotCache := r.2,
                        stats := { s.stats with hotHits := s.stats.hotHits + 1 } }
      fetched := false }
  else if hash ∈ s.negative then
    { result := .ok none
      state := { s with stats := { s.stats with negativeHits := s.stats.negativeHits + 1 } }
      fetched := false }
  else if hash ∈ s.sieve then
    let s := { s with stats := { s.stats with sieveHits := s.stats.sieveHits + 1 } }
    match fr with
    | .error e => { result := .error e, state := s, fetched := true }
    | .ok result =>
      { result := .ok result
        state := { s with hotCache := s.hotCache.set hash result }
        fetched := true }
  else if ! s.bloom.mightContain digest hash then
    { result := .ok none
      state := { s with stats := { s.stats with notFound := s.stats.notFound + 1 },
                        negative := s.negative.insert hash }
      fetched := false }
  else
    let s := { s with stats := { s.stats with bloomHits := s.stats.bloomHits + 1,
                                               fetches := s.stats.fetches + 1 } }
    match fr with
    | .error e => { result := .error e, state := s, fetched := true }
    | .ok (some r) =>
      { result := .ok (some r)
        state := { s with sieve := s.sieve.insert hash,
                          hotCache := s.hotCache.set hash (some r),
                          bloom := s.bloom.add digest hash }
        fetched := true }
    | .ok none =>
      { result := .ok none
        state := { s with negative := s.negative.insert hash,
                          stats := { s.stats with notFound := s.stats.notFound + 1 } }
        fetched := true }

/-- `FastLookup.prototype.add`: write through every positive tier, remove
the key from the negative set, store the record in the index. -/
def FastLookup.add (digest : String → Nat) (s : FastLookup) (hash : String)
    (data : Record) : FastLookup :=
  { s with
    bloom := s.bloom.add digest hash,
    sieve := s.sieve.insert hash,
    hotCache := s.hotCache.set hash (some data),
    negative := s.negative.filter (fun k => k != hash),
    index :=
      if s.index.any (fun p => p.1 == hash) then
        s.index.map (fun p => if p.1 == hash then (hash, data) else p)
      else s.index ++ [(hash, data)] }

/-- `FastLookup.prototype.preload`: adds keys to the Bloom filter only;
the 100 ms wall-clock budget that breaks the loop is modelled by the
oracle `n`, the number of keys processed before the cutoff. -/
def FastLookup.preload (digest : String → Nat) (s : FastLookup)
    (hashes : List String) (n : Nat) : FastLookup :=
  { s with bloom := (hashes.take n).foldl (fun b h => b.add digest h) s.bloom }

/-- `FastLookup.prototype.clear`: a fresh `new LRU(10000)`, emptied
existence sets; Bloom filter (and index, stats) untouched. -/
def FastLookup.clear (s : FastLookup) : FastLookup :=
  { s with hotCache := ⟨10000, []⟩, sieve := [], negative := [] }

/-- One public operation on a `FastLookup`, with its environment
oracles. -/
inductive Op where
  | get (k : String) (fr : Except String (Option Record))
  | add (k : String) (r : Record)
  | preload (ks : List String) (n : Nat)
  | clear
deriving DecidableEq, Repr

/-- The state transition of one operation. -/
def FastLookup.step (digest : String → Nat) (s : FastLookup) : Op → FastLookup
  | .get k fr => (s.get digest k fr).state
  | .add k r => s.add digest k r
  | .preload ks n => s.preload digest ks n
  | .clear => s.clear

/-- Running a sequence of operations. -/
def FastLookup.run (digest : String → Nat) (s : FastLookup) (ops : List Op) :
    FastLookup :=
  ops.foldl (FastLookup.step digest) s

/-- A concrete run of `get` against the mock store: the fetch outcome is
the (always resolving) `fetchFromIndex` itself, with its random draw `q`
and timestamp `now`. -/
def FastLookup.getRun (digest : String → Nat) (s : FastLookup) (hash : String)
    (q : ℚ) (now : String) : GetResult :=
  s.get digest hash (.ok (s.fetchFromIndex q now hash))

/-- The mutual-exclusion invariant: no key in both existence sets. -/
def FastLookup.sieveNegDisjoint (s : FastLookup) : Prop :=
  ∀ x ∈ s.sieve, x ∉ s.negative

/-- Well-formedness of a Bloom filter: a positive bit-array size covered
by the byte array, as established by the constructor. -/
def BloomFilter.wf (bf : BloomFilter) : Prop :=
  0 < bf.size ∧ bf.size ≤ 8 * bf.bits.length

/-- Folding `BloomFilter.add` over a batch of items. -/
def BloomFilter.addAll (digest : String → Nat) (bf : BloomFilter)
    (items : List String) : BloomFilter :=
  items.foldl (fun b i => b.add digest i) bf

/-- Inserting a batch of keys into an `LRU` via `set`, with values given
by `v`. -/
def LRU.insertAll (l : LRU) (ks : List String) (v : String → Option Record) : LRU :=
  ks.foldl (fun l k => l.set k (v k)) l

/-- A concrete stand-in for the SHA-256 based digest, used in witnesses. -/
def digest0 : String → Nat := fun s => s.length

/-- A concrete record, used in witnesses. -/
def rec0 : Record := ⟨"k", "s", "w", "t"⟩

/-- Concrete LRU construction `new LRU(maxSize)`. -/
def mkLRU (maxSize : Nat) : LRU := ⟨maxSize, []⟩

theorem bitsSet_length (bits : List Nat) (i : Nat) :
    (bitsSet bits i).length = bits.length := by
  simp [bitsSet]

theorem list_set_getD_self : ∀ (l : List Nat) (n : Nat), l.set n (l.getD n 0) = l
  | [], _ => rfl
  | _ :: _, 0 => rfl
  | a :: l, n + 1 => congrArg (a :: ·) (list_set_getD_self l n)

theorem bitsGet_bitsSet_self (bits : List Nat) (i : Nat) (h : i / 8 < bits.length) :
    bitsGet (bitsSet bits i) i = true := by
  unfold bitsGet bitsSet
  rw [List.getD_eq_getElem?_getD, List.getElem?_set_self (by simpa using h)]
  simp [Nat.testBit_lor, Nat.shiftLeft_eq, Nat.testBit_two_pow_self]

theorem bitsGet_bitsSet_mono (bits : List Nat) (i j : Nat)
    (h : bitsGet bits j = true) : bitsGet (bitsSet bits i) j = true := by
  unfold bitsGet at h ⊢
  unfold bitsSet
  rcases eq_or_ne (i / 8) (j / 8) with hij | hij
  · rcases Nat.lt_or_ge (i / 8) bits.length with hlen | hlen
    · rw [List.getD_eq_getElem?_getD, ← hij, List.getElem?_set_self hlen]
      rw [← hij] at h
      simp only [Option.getD_some, Nat.testBit_lor]
      rw [List.getD_eq_getElem?_getD] at h
      simp [h]
    · rw [List.set_eq_of_length_le hlen]
      exact h
  · rw [List.getD_eq_getElem?_getD, List.getElem?_set_ne hij, ← List.getD_eq_getElem?_getD]
    exact h

theorem bitsSet_eq_self (bits : List Nat) (i : Nat)
    (h : bitsGet bits i = true ∨ bits.length ≤ i / 8) : bitsSet bits i = bits := by
  rcases h with h | h
  · unfold bitsSet
    have hb : bits.getD (i / 8) 0 ||| 1 <<< (i % 8) = bits.getD (i / 8) 0 := by
      apply Nat.eq_of_testBit_eq
      intro n
      rw [Nat.testBit_lor, Nat.shiftLeft_eq, one_mul, Nat.testBit_two_pow]
      rcases eq_or_ne (i % 8) n with hn | hn
      · subst hn
        unfold bitsGet at h
        simpa [List.getD_eq_getElem?_getD] using h
      · simp [hn]
    rw [hb, list_set_getD_self]
  · unfold bitsSet
    exact List.set_eq_of_length_le h

theorem foldl_bitsSet_length (ps : List Nat) (bits : List Nat) :
    (ps.foldl bitsSet bits).length = bits.length := by
  induction ps generalizing bits with
  | nil => rfl
  | cons p ps ih => rw [List.foldl_cons, ih, bitsSet_length]

theorem foldl_bitsSet_mono (ps : List Nat) (bits : List Nat) (j : Nat)
    (h : bitsGet bits j = true) : bitsGet (ps.foldl bitsSet bits) j = true := by
  induction ps generalizing bits with
  | nil => exact h
  | cons p ps ih => exact ih _ (bitsGet_bitsSet_mono bits p j h)

theorem foldl_bitsSet_mem (ps : List Nat) (bits : List Nat) (p : Nat)
    (hp : p ∈ ps) (hlen : p / 8 < bits.length) :
    bitsGet (ps.foldl bitsSet bits) p = true := by
  induction ps generalizing bits with
  | nil => cases hp
  | cons q qs ih =>
    rcases List.mem_cons.mp hp with rfl | hp
    · exact foldl_bitsSet_mono qs _ p (bitsGet_bitsSet_self bits p hlen)
    · exact ih (bitsSet bits q) hp (by rw [bitsSet_length]; exact hlen)

theorem foldl_bitsSet_eq_self (ps : List Nat) (bits : List Nat)
    (h : ∀ p ∈ ps, bitsGet bits p = true ∨ bits.length ≤ p / 8) :
    ps.foldl bitsSet bits = bits := by
  induction ps with
  | nil => rfl
  | cons q qs ih =>
    rw [List.foldl_cons, bitsSet_eq_self bits q (h q (List.mem_cons_self q qs))]
    exact ih fun p hp => h p (List.mem_cons_of_mem q hp)

theorem BloomFilter.add_bits (digest : String → Nat) (bf : BloomFilter) (item : String) :
    (bf.add digest item).bits
      = ((List.range bf.numHashes).map (bf.hashIdx digest item)).foldl bitsSet bf.bits := by
  simp [BloomFilter.add, List.foldl_map]

theorem BloomFilter.add_size (digest : String → Nat) (bf : BloomFilter) (item : String) :
    (bf.add digest item).size = bf.size := rfl

theorem BloomFilter.add_numHashes (digest : String → Nat) (bf : BloomFilter) (item : String) :
    (bf.add digest item).numHashes = bf.numHashes := rfl

theorem BloomFilter.add_itemCount (digest : String → Nat) (bf : BloomFilter) (item : String) :
    (bf.add digest item).itemCount = bf.itemCount + 1 := rfl

theorem BloomFilter.add_bits_length (digest : String → Nat) (bf : BloomFilter) (item : String) :
    (bf.add digest item).bits.length = bf.bits.length := by
  rw [BloomFilter.add_bits, foldl_bitsSet_length]

theorem BloomFilter.add_wf (digest : String → Nat) (bf : BloomFilter) (item : String)
    (h : bf.wf) : (bf.add digest item).wf := by
  obtain ⟨h1, h2⟩ := h
  exact ⟨h1, by rw [BloomFilter.add_size, BloomFilter.add_bits_length]; exact h2⟩

theorem BloomFilter.hashIdx_div_lt (digest : String → Nat) (bf : BloomFilter)
    (item : String) (seed : Nat) (h : bf.wf) :
    bf.hashIdx digest item seed / 8 < bf.bits.length := by
  obtain ⟨h1, h2⟩ := h
  have hlt : bf.hashIdx digest item seed < bf.size := Nat.mod_lt _ h1
  rw [Nat.div_lt_iff_lt_mul (by norm_num : 0 < 8)]
  calc bf.hashIdx digest item seed < bf.size := hlt
    _ ≤ 8 * bf.bits.length := h2
    _ = bf.bits.length * 8 := Nat.mul_comm _ _

theorem BloomFilter.mightContain_add_self (digest : String → Nat) (bf : BloomFilter)
    (item : String) (h : bf.wf) :
    (bf.add digest item).mightContain digest item = true := by
  unfold BloomFilter.mightContain
  rw [List.all_eq_true]
  intro i hi
  rw [BloomFilter.add_bits]
  exact foldl_bitsSet_mem _ _ _ (List.mem_map_of_mem _ hi)
    (bf.hashIdx_div_lt digest item i h)

theorem BloomFilter.mightContain_add_mono (digest : String → Nat) (bf : BloomFilter)
    (item other : String) (h : bf.mightContain digest item = true) :
    (bf.add digest other).mightContain digest item = true := by
  unfold BloomFilter.mightContain at h ⊢
  rw [List.all_eq_true] at h ⊢
  intro i hi
  rw [BloomFilter.add_bits]
  exact foldl_bitsSet_mono _ _ _ (h i hi)

theorem BloomFilter.mightContain_addAll_mono (digest : String → Nat)
    (items : List String) (bf : BloomFilter) (item : String)
    (h : bf.mightContain digest item = true) :
    (bf.addAll digest items).mightContain digest item = true := by
  induction items generalizing bf with
  | nil => exact h
  | cons x xs ih =>
    exact ih _ (bf.mightContain_add_mono digest item x h)

/-- C2: the membership filter has no false negatives: once `k` is passed
to `BloomFilter.add`, `mightContain k` stays `true` after any further
sequence of `add` operations, for a well-formed filter (positive size
covered by the byte array, as the constructor guarantees) and any digest
function. -/
theorem c2_no_false_negatives (digest : String → Nat) (bf : BloomFilter)
    (k : String) (post : List String) (h : bf.wf) :
    ((bf.add digest k).addAll digest post).mightContain digest k = true :=
  BloomFilter.mightContain_addAll_mono digest post _ k
    (bf.mightContain_add_self digest k h)

theorem c2_witness :
    (mkBloomFilter 8 1).wf
    ∧ (((mkBloomFilter 8 1).add digest0 "k").addAll digest0 ["a", "b"]).mightContain
        digest0 "k" = true :=
  ⟨⟨by decide, by decide⟩,
    c2_no_false_negatives digest0 (mkBloomFilter 8 1) "k" ["a", "b"] ⟨by decide, by decide⟩⟩

/-- C7 counterexample: adding the same key twice does not leave the filter
in the same state as adding it once, because `itemCount` is incremented
unconditionally (`this.itemCount++`), so the claimed idempotence of
`BloomFilter.add` fails on a concrete filter. -/
theorem c7_counterexample :
    ((mkBloomFilter 8 1).add digest0 "k").add digest0 "k"
      ≠ (mkBloomFilter 8 1).add digest0 "k" := by
  decide

theorem BloomFilter.mightContain_congr (digest : String → Nat)
    (bf₁ bf₂ : BloomFilter) (hs : bf₁.size = bf₂.size)
    (hn : bf₁.numHashes = bf₂.numHashes) (hb : bf₁.bits = bf₂.bits)
    (item : String) :
    bf₁.mightContain digest item = bf₂.mightContain digest item := by
  unfold BloomFilter.mightContain BloomFilter.hashIdx
  rw [hs, hn, hb]

/-- C7 amended: adding a key twice sets exactly the same bits as adding it
once (so `mightContain` answers identically on every key afterwards), but
`itemCount` grows by 2 instead of 1, so the filter state — and hence the
estimated false-positive rate, which depends on `itemCount` — is not the
same. -/
theorem c7_amended (digest : String → Nat) (bf : BloomFilter) (k : String) :
    ((bf.add digest k).add digest k).bits = (bf.add digest k).bits
    ∧ (∀ q, ((bf.add digest k).add digest k).mightContain digest q
        = (bf.add digest k).mightContain digest q)
    ∧ ((bf.add digest k).add digest k).itemCount = bf.itemCount + 2 := by
  have hbits : ((bf.add digest k).add digest k).bits = (bf.add digest k).bits := by
    rw [BloomFilter.add_bits digest (bf.add digest k) k]
    have hsame : (bf.add digest k).hashIdx digest k = bf.hashIdx digest k := rfl
    rw [BloomFilter.add_numHashes, hsame]
    apply foldl_bitsSet_eq_self
    intro p hp
    rcases Nat.lt_or_ge (p / 8) (bf.add digest k).bits.length with hlt | hge
    · left
      rw [BloomFilter.add_bits]
      exact foldl_bitsSet_mem _ _ _ hp
        (by rwa [BloomFilter.add_bits_length] at hlt)
    · right
      exact hge
  refine ⟨hbits, fun q => ?_, rfl⟩
  exact BloomFilter.mightContain_congr digest ((bf.add digest k).add digest k)
    (bf.add digest k) rfl rfl hbits q

theorem find?_append_last (c : List (String × Option Record)) (k : String)
    (v : Option Record) (h : ∀ p ∈ c, (p.1 == k) = false) :
    (c ++ [(k, v)]).find? (fun p => p.1 == k) = some (k, v) := by
  induction c with
  | nil => simp
  | cons a c ih =>
    rw [List.cons_append, List.find?_cons_of_neg _ (by simp [h a (List.mem_cons_self a c)])]
    exact ih fun p hp => h p (List.mem_cons_of_mem a hp)

theorem LRU.set_no_key (l : LRU) (k : String) (v : Option Record) :
    ∀ p ∈ (l.set k v).cache.dropLast, (p.1 == k) = false := by
  unfold LRU.set
  intro p hp
  split_ifs at hp with h1 h2 <;>
    rw [List.dropLast_concat] at hp
  · have := (List.mem_filter.mp hp).2
    simpa using this
  · have h1' : ∀ x : Option Record, (k, x) ∉ l.cache := by simpa using h1
    refine Bool.eq_false_iff.mpr fun hb => ?_
    have hpk : p.1 = k := by simpa using hb
    have hmem : p ∈ l.cache := List.mem_of_mem_tail hp
    exact h1' p.2 (by simpa [← hpk] using hmem)
  · have h1' : ∀ x : Option Record, (k, x) ∉ l.cache := by simpa using h1
    refine Bool.eq_false_iff.mpr fun hb => ?_
    have hpk : p.1 = k := by simpa using hb
    exact h1' p.2 (by simpa [← hpk] using hp)

theorem LRU.set_cache_eq (l : LRU) (k : String) (v : Option Record) :
    ∃ c, (l.set k v).cache = c ++ [(k, v)] ∧ ∀ p ∈ c, (p.1 == k) = false := by
  have h := l.set_no_key k v
  unfold LRU.set at h ⊢
  split_ifs at h ⊢ with h1 h2
  · rw [List.dropLast_concat] at h
    exact ⟨_, rfl, h⟩
  · rw [List.dropLast_concat] at h
    exact ⟨_, rfl, h⟩
  · rw [List.dropLast_concat] at h
    exact ⟨_, rfl, h⟩

theorem LRU.set_has (l : LRU) (k : String) (v : Option Record) :
    (l.set k v).has k = true := by
  obtain ⟨c, hc, -⟩ := l.set_cache_eq k v
  unfold LRU.has
  rw [hc]
  simp

theorem LRU.set_find (l : LRU) (k : String) (v : Option Record) :
    ((l.set k v).cache).find? (fun p => p.1 == k) = some (k, v) := by
  obtain ⟨c, hc, hno⟩ := l.set_cache_eq k v
  rw [hc]
  exact find?_append_last c k v hno

theorem LRU.get_set_self (l : LRU) (k : String) (v : Option Record) :
    ((l.set k v).get k).1 = v := by
  unfold LRU.get
  rw [LRU.set_find]

theorem LRU.set_maxSize (l : LRU) (k : String) (v : Option Record) :
    (l.set k v).maxSize = l.maxSize := rfl

theorem LRU.get_maxSize (l : LRU) (k : String) :
    ((l.get k).2).maxSize = l.maxSize := by
  unfold LRU.get
  split <;> rfl

/-- C4: immediately after `add(k, r)`, `get(k)` returns `r` through the
hot-cache path — no matter what the (never consulted) fetch oracle would
have produced — with `hotHits` incremented and no `fetchFromIndex` call. -/
theorem c4_write_visibility (digest : String → Nat) (s : FastLookup) (k : String)
    (r : Record) (fr : Except String (Option Record)) :
    ((s.add digest k r).get digest k fr).result = .ok (some r)
    ∧ ((s.add digest k r).get digest k fr).fetched = false
    ∧ ((s.add digest k r).get digest k fr).state.stats.hotHits
        = (s.add digest k r).stats.hotHits + 1 := by
  have hhas : (s.add digest k r).hotCache.has k = true := LRU.set_has _ _ _
  have hget : ((s.add digest k r).hotCache.get k).1 = some r := LRU.get_set_self _ _ _
  unfold FastLookup.get
  simp [hhas, hget]

theorem LRU.set_fresh_under_capacity (C : Nat) (pre : List (String × Option Record))
    (a : String) (v : Option Record) (hfresh : ∀ p ∈ pre, (p.1 == a) = false)
    (hroom : pre.length < C) :
    LRU.set ⟨C, pre⟩ a v = ⟨C, pre ++ [(a, v)]⟩ := by
  unfold LRU.set
  rw [if_neg, if_neg]
  · exact Nat.not_le_of_lt hroom
  · intro hany
    obtain ⟨p, hp, hb⟩ := List.any_eq_true.mp hany
    exact absurd hb (by simp [hfresh p hp])

theorem LRU.insertAll_fill (C : Nat) (v : String → Option Record) :
    ∀ (ks : List String) (pre : List (String × Option Record)),
      ks.Nodup → (∀ k ∈ ks, ∀ p ∈ pre, (p.1 == k) = false) →
      pre.length + ks.length ≤ C →
      LRU.insertAll ⟨C, pre⟩ ks v = ⟨C, pre ++ ks.map (fun k => (k, v k))⟩ := by
  intro ks
  induction ks with
  | nil => intro pre _ _ _; simp [LRU.insertAll]
  | cons a ks ih =>
    intro pre hnd hdis hlen
    have hstep : LRU.set ⟨C, pre⟩ a (v a) = ⟨C, pre ++ [(a, v a)]⟩ :=
      LRU.set_fresh_under_capacity C pre a (v a)
        (hdis a (List.mem_cons_self a ks)) (by simp at hlen; omega)
    have htail := ih (pre ++ [(a, v a)]) (List.Nodup.of_cons hnd)
      (by
        intro k hk p hp
        rcases List.mem_append.mp hp with hp | hp
        · exact hdis k (List.mem_cons_of_mem a hk) p hp
        · have hpa : p = (a, v a) := by simpa using hp
          subst hpa
          have hak : a ≠ k := fun h => (List.nodup_cons.mp hnd).1 (h ▸ hk)
          simp [hak])
      (by simp at hlen ⊢; omega)
    calc LRU.insertAll ⟨C, pre⟩ (a :: ks) v
        = LRU.insertAll (LRU.set ⟨C, pre⟩ a (v a)) ks v := rfl
      _ = LRU.insertAll ⟨C, pre ++ [(a, v a)]⟩ ks v := by rw [hstep]
      _ = ⟨C, (pre ++ [(a, v a)]) ++ ks.map (fun k => (k, v k))⟩ := htail
      _ = ⟨C, pre ++ (a :: ks).map (fun k => (k, v k))⟩ := by
          simp [List.append_assoc]

/-- C5 counterexample: for an LRU of capacity 0, inserting 1 distinct key
leaves that first-inserted key present (evicting the first entry of the
empty map is a no-op and the new entry is then appended), contradicting
the claim that the first-inserted key is absent for every capacity `C`. -/
theorem c5_counterexample :
    (LRU.insertAll (mkLRU 0) ["a"] (fun _ => none)).has "a" = true := by
  decide

/-- C5 amended: for every LRU of capacity `C ≥ 1`, inserting `C+1`
distinct keys `a :: rest` via `set` without intervening reads evicts
exactly the first-inserted key `a` and keeps the other `C` keys. -/
theorem c5_amended (C : Nat) (hC : 0 < C) (a : String) (rest : List String)
    (v : String → Option Record) (hnd : (a :: rest).Nodup) (hlen : rest.length = C) :
    (LRU.insertAll (mkLRU C) (a :: rest) v).has a = false
    ∧ ∀ k ∈ rest, (LRU.insertAll (mkLRU C) (a :: rest) v).has k = true := by
  rcases List.eq_nil_or_concat rest with rfl | ⟨rs, b, rfl⟩
  · simp at hlen; omega
  rw [List.concat_eq_append] at hnd hlen ⊢
  have hnd' : ((a :: rs) ++ [b]).Nodup := by simpa using hnd
  have hnd1 : (a :: rs).Nodup := (List.nodup_append.mp hnd').1
  have hbnot : b ∉ a :: rs := fun hb =>
    (List.nodup_append.mp hnd').2.2 hb (by simp)
  have hanot : a ∉ rs ++ [b] := (List.nodup_cons.mp hnd).1
  have hrslen : rs.length + 1 = C := by simpa using hlen
  have h1 : LRU.insertAll (mkLRU C) (a :: rs) v
      = ⟨C, (a :: rs).map (fun k => (k, v k))⟩ := by
    apply LRU.insertAll_fill
    · exact hnd1
    · intro k _ p hp
      simp at hp
    · simp
      omega
  have h2 : LRU.insertAll (mkLRU C) (a :: (rs ++ [b])) v
      = LRU.set (LRU.insertAll (mkLRU C) (a :: rs) v) b (v b) := by
    unfold LRU.insertAll
    rw [show a :: (rs ++ [b]) = (a :: rs) ++ [b] from rfl, List.foldl_append]
    simp
  have h3 : LRU.set (⟨C, (a :: rs).map (fun k => (k, v k))⟩ : LRU) b (v b)
      = ⟨C, rs.map (fun k => (k, v k)) ++ [(b, v b)]⟩ := by
    unfold LRU.set
    rw [if_neg, if_pos]
    · simp
    · simp
      omega
    · intro hany
      obtain ⟨p, hp, hb2⟩ := List.any_eq_true.mp hany
      obtain ⟨k', hk', rfl⟩ := List.mem_map.mp hp
      have hkb : k' = b := by simpa using hb2
      exact hbnot (hkb ▸ hk')
  rw [h2, h1, h3]
  constructor
  · refine Bool.eq_false_iff.mpr fun hab => ?_
    have hab' : a ∈ rs ∨ b = a := by simpa [LRU.has] using hab
    rcases hab' with h | h
    · exact hanot (List.mem_append_left _ h)
    · exact hanot (List.mem_append_right _ (by simp [← h]))
  · intro k hk
    show (LRU.has _ k) = true
    unfold LRU.has
    apply List.any_eq_true.mpr
    rcases List.mem_append.mp hk with hk | hk
    · exact ⟨(k, v k), List.mem_append_left _ (List.mem_map_of_mem _ hk), by simp⟩
    · have hkb : k = b := by simpa using hk
      subst hkb
      exact ⟨(k, v k), List.mem_append_right _ (by simp), by simp⟩

theorem c5_witness :
    (0 < 2 ∧ (["a", "b", "c"] : List String).Nodup
      ∧ (["b", "c"] : List String).length = 2)
    ∧ (LRU.insertAll (mkLRU 2) ["a", "b", "c"] (fun _ => none)).has "a" = false
    ∧ ∀ k ∈ ["b", "c"], (LRU.insertAll (mkLRU 2) ["a", "b", "c"] (fun _ => none)).has k = true :=
  ⟨⟨by decide, by decide, by decide⟩,
    c5_amended 2 (by decide) "a" ["b", "c"] (fun _ => none) (by decide) (by decide)⟩

theorem FastLookup.get_sets (digest : String → Nat) (s : FastLookup) (k : String)
    (fr : Except String (Option Record)) :
    ((s.get digest k fr).state.sieve = s.sieve
      ∧ (s.get digest k fr).state.negative = s.negative)
    ∨ ((s.get digest k fr).state.sieve = s.sieve
      ∧ (s.get digest k fr).state.negative = s.negative.insert k ∧ k ∉ s.sieve)
    ∨ ((s.get digest k fr).state.sieve = s.sieve.insert k
      ∧ (s.get digest k fr).state.negative = s.negative ∧ k ∉ s.negative) := by
  unfold FastLookup.get
  dsimp only
  split_ifs with h1 h2 h3 h4
  · exact Or.inl ⟨rfl, rfl⟩
  · exact Or.inl ⟨rfl, rfl⟩
  · rcases fr with e | res
    · exact Or.inl ⟨rfl, rfl⟩
    · exact Or.inl ⟨rfl, rfl⟩
  · exact Or.inr (Or.inl ⟨rfl, rfl, h3⟩)
  · rcases fr with e | res
    · exact Or.inl ⟨rfl, rfl⟩
    · rcases res with - | rec
      · exact Or.inr (Or.inl ⟨rfl, rfl, h3⟩)
      · exact Or.inr (Or.inr ⟨rfl, rfl, h2⟩)

/-- C1: every operation (`get` with an arbitrary fetch outcome, `add`,
`preload`, `clear`) preserves the mutual-exclusion invariant
`sieve ∩ negative = ∅`; each operation is one atomic step of the
single-threaded model, so no state with a key in both sets is
observable. -/
theorem c1_mutual_exclusion (digest : String → Nat) (s : FastLookup) (op : Op)
    (h : s.sieveNegDisjoint) : (s.step digest op).sieveNegDisjoint := by
  cases op with
  | clear =>
    intro x hx
    simp [FastLookup.step, FastLookup.clear] at hx
  | preload ks n =>
    intro x hx
    exact h x hx
  | add k r =>
    intro x hx hneg
    have hx' : x = k ∨ x ∈ s.sieve := by
      simpa [FastLookup.step, FastLookup.add] using hx
    have hneg' : x ∈ s.negative ∧ ¬x = k := by
      simpa [FastLookup.step, FastLookup.add] using hneg
    rcases hx' with rfl | hx'
    · exact hneg'.2 rfl
    · exact h x hx' hneg'.1
  | get k fr =>
    simp only [FastLookup.step]
    rcases FastLookup.get_sets digest s k fr with ⟨hs, hn⟩ | ⟨hs, hn, hk⟩ | ⟨hs, hn, hk⟩
    · intro x hx hneg
      rw [hs] at hx
      rw [hn] at hneg
      exact h x hx hneg
    · intro x hx hneg
      rw [hs] at hx
      rw [hn] at hneg
      rcases List.mem_insert_iff.mp hneg with rfl | hneg'
      · exact hk hx
      · exact h x hx hneg'
    · intro x hx hneg
      rw [hn] at hneg
      rcases List.mem_insert_iff.mp (hs ▸ hx) with rfl | hx'
      · exact hk hneg
      · exact h x hx' hneg

theorem c1_witness :
    (mkFastLookup 4 8 1).sieveNegDisjoint
    ∧ ((mkFastLookup 4 8 1).step digest0 (.add "k" rec0)).sieveNegDisjoint :=
  ⟨by intro x hx; simp [mkFastLookup] at hx,
    c1_mutual_exclusion digest0 (mkFastLookup 4 8 1) (.add "k" rec0)
      (by intro x hx; simp [mkFastLookup] at hx)⟩

/-- C3: for a key in the negative set that is not hot, `get` returns the
not-found result (`null`) immediately and `fetchFromIndex` is not
invoked. -/
theorem c3_negative_short_circuit (digest : String → Nat) (s : FastLookup)
    (k : String) (fr : Except String (Option Record))
    (h1 : s.hotCache.has k = false) (h2 : k ∈ s.negative) :
    (s.get digest k fr).result = .ok none ∧ (s.get digest k fr).fetched = false := by
  simp [FastLookup.get, h1, h2]

def sC3 : FastLookup := { mkFastLookup 4 8 1 with negative := ["k"] }

theorem c3_witness :
    (sC3.hotCache.has "k" = false ∧ "k" ∈ sC3.negative)
    ∧ ((sC3.get digest0 "k" (.ok none)).result = .ok none
      ∧ (sC3.get digest0 "k" (.ok none)).fetched = false) :=
  ⟨⟨by decide, by decide⟩,
    c3_negative_short_circuit digest0 sC3 "k" (.ok none) (by decide) (by decide)⟩

/-- C6: when the (at most one) backing-store fetch of a `get` call rejects
with `e`, the rejection is surfaced to the caller unchanged —
distinguishable from the not-found result `ok none` — and the key is
never inserted into the negative set (the negative set is exactly as
before). -/
theorem c6_store_error_propagates (digest : String → Nat) (s : FastLookup)
    (k : String) (e : String)
    (h : (s.get digest k (.error e)).fetched = true) :
    (s.get digest k (.error e)).result = Except.error e
    ∧ (s.get digest k (.error e)).result ≠ Except.ok none
    ∧ (s.get digest k (.error e)).state.negative = s.negative := by
  unfold FastLookup.get at h ⊢
  dsimp only at h ⊢
  split_ifs at h ⊢ with h1 h2 h3 h4
  · exact ⟨rfl, by simp, rfl⟩
  · exact ⟨rfl, by simp, rfl⟩

def sC6 : FastLookup := { mkFastLookup 4 8 1 with sieve := ["k"] }

theorem c6_witness :
    ((sC6.get digest0 "k" (.error "boom")).fetched = true)
    ∧ ((sC6.get digest0 "k" (.error "boom")).result = Except.error "boom"
      ∧ (sC6.get digest0 "k" (.error "boom")).result ≠ Except.ok none
      ∧ (sC6.get digest0 "k" (.error "boom")).state.negative = sC6.negative) :=
  ⟨by decide, c6_store_error_propagates digest0 sC6 "k" "boom" (by decide)⟩

theorem FastLookup.get_maxSize_eq (digest : String → Nat) (s : FastLookup)
    (k : String) (fr : Except String (Option Record)) :
    (s.get digest k fr).state.hotCache.maxSize = s.hotCache.maxSize := by
  unfold FastLookup.get
  dsimp only
  split_ifs with h1 h2 h3 h4
  · exact LRU.get_maxSize s.hotCache k
  · rfl
  · rcases fr with e | res
    · rfl
    · exact LRU.set_maxSize s.hotCache k res
  · rfl
  · rcases fr with e | res
    · rfl
    · rcases res with - | rec
      · rfl
      · exact LRU.set_maxSize s.hotCache k (some rec)

theorem FastLookup.step_maxSize (digest : String → Nat) (s : FastLookup) (op : Op)
    (h : op ≠ Op.clear) :
    (s.step digest op).hotCache.maxSize = s.hotCache.maxSize := by
  cases op with
  | get k fr => exact FastLookup.get_maxSize_eq digest s k fr
  | add k r => exact LRU.set_maxSize s.hotCache k (some r)
  | preload ks n => rfl
  | clear => exact absurd rfl h

theorem FastLookup.run_maxSize (digest : String → Nat) (ops : List Op) :
    ∀ s : FastLookup, Op.clear ∉ ops →
      (s.run digest ops).hotCache.maxSize = s.hotCache.maxSize := by
  induction ops with
  | nil => intro s _; rfl
  | cons op ops ih =>
    intro s hno
    have hop : op ≠ Op.clear := fun he => hno (he ▸ List.mem_cons_self op ops)
    calc (s.run digest (op :: ops)).hotCache.maxSize
        = ((s.step digest op).run digest ops).hotCache.maxSize := rfl
      _ = (s.step digest op).hotCache.maxSize :=
          ih _ (fun hm => hno (List.mem_cons_of_mem op hm))
      _ = s.hotCache.maxSize := FastLookup.step_maxSize digest s op hop

/-- C8 counterexample: `clear()` replaces the hot cache by a literal
`new LRU(10000)`, so a `FastLookup` constructed with `cacheSize = 5` does
not keep its capacity across `clear`. -/
theorem c8_counterexample :
    ((mkFastLookup 5 8 1).step digest0 Op.clear).hotCache.maxSize
      ≠ (mkFastLookup 5 8 1).hotCache.maxSize := by
  decide

/-- C8 amended: the hot-cache capacity chosen at construction is preserved
by every operation except `clear`; a `clear` resets it to the hard-coded
default 10000 (so it is preserved across `clear` only when the
constructed capacity is 10000). -/
theorem c8_amended (digest : String → Nat) (cacheSize bloomSize numHashes : Nat)
    (ops : List Op) (h : Op.clear ∉ ops) :
    ((mkFastLookup cacheSize bloomSize numHashes).run digest ops).hotCache.maxSize
      = (mkFastLookup cacheSize bloomSize numHashes).hotCache.maxSize
    ∧ (((mkFastLookup cacheSize bloomSize numHashes).run digest ops).step digest
        Op.clear).hotCache.maxSize = 10000 :=
  ⟨FastLookup.run_maxSize digest ops _ h, rfl⟩

theorem c8_witness :
    (Op.clear ∉ ([Op.add "k" rec0] : List Op))
    ∧ ((mkFastLookup 5 8 1).run digest0 [Op.add "k" rec0]).hotCache.maxSize
        = (mkFastLookup 5 8 1).hotCache.maxSize
    ∧ (((mkFastLookup 5 8 1).run digest0 [Op.add "k" rec0]).step digest0
        Op.clear).hotCache.maxSize = 10000 :=
  ⟨by decide, c8_amended digest0 5 8 1 [Op.add "k" rec0] (by decide)⟩

/-- C9: `clear()` empties the hot cache and both existence sets while the
Bloom filter state is untouched, so `mightContain` answers exactly as
before for every key and digest. -/
theorem c9_clear_frame (digest : String → Nat) (s : FastLookup) :
    s.clear.hotCache.cache = [] ∧ s.clear.sieve = [] ∧ s.clear.negative = []
    ∧ s.clear.bloom = s.bloom
    ∧ ∀ k, s.clear.bloom.mightContain digest k = s.bloom.mightContain digest k :=
  ⟨rfl, rfl, rfl, rfl, fun _ => rfl⟩

/-- The state reached by preloading the single key `"z"`: the Bloom filter
answers maybe-present for `"z"` while the index, hot cache and existence
sets know nothing about it. -/
def sC10 : FastLookup :=
  (mkFastLookup 4 8 1).step digest0 (.preload ["z"] 1)

/-- C10: `get` on a cold maybe-present key is nondeterministic through the
randomness of the mock store: from the same state `sC10`, the draw `0`
(below 0.1) makes `fetchFromIndex` return `null` so the key lands in the
negative set, while the draw `1/2` fabricates a record so the key lands in
the sieve — different results and different existence sets. -/
theorem c10_nondeterministic_fetch :
    sC10.index = []
    ∧ sC10.bloom.mightContain digest0 "z" = true
    ∧ (sC10.getRun digest0 "z" 0 "t").result ≠ (sC10.getRun digest0 "z" (1/2) "t").result
    ∧ "z" ∈ (sC10.getRun digest0 "z" 0 "t").state.negative
    ∧ "z" ∉ (sC10.getRun digest0 "z" 0 "t").state.sieve
    ∧ "z" ∈ (sC10.getRun digest0 "z" (1/2) "t").state.sieve
    ∧ "z" ∉ (sC10.getRun digest0 "z" (1/2) "t").state.negative := by
  have h0 : FastLookup.fetchFromIndex sC10 0 "t" "z" = none := by
    have hq : ((0 : ℚ) < 1/10) := by norm_num
    simp [FastLookup.fetchFromIndex, sC10, FastLookup.step, FastLookup.preload,
      mkFastLookup, hq]
  have h1 : FastLookup.fetchFromIndex sC10 (1/2) "t" "z"
      = some { hash := "z", source := "// Function z"
               wasm := "bW9jay13YXNt", created := "t" } := by
    have hq : ¬ ((1 : ℚ)/2 < 1/10) := by norm_num
    simp [FastLookup.fetchFromIndex, sC10, FastLookup.step, FastLookup.preload,
      mkFastLookup, hq]
    norm_num
  have e0 : sC10.getRun digest0 "z" 0 "t"
      = sC10.get digest0 "z" (.ok (sC10.fetchFromIndex 0 "t" "z")) := rfl
  have e1 : sC10.getRun digest0 "z" (1/2) "t"
      = sC10.get digest0 "z" (.ok (sC10.fetchFromIndex (1/2) "t" "z")) := rfl
  rw [e0, e1, h0, h1]
  refine ⟨rfl, by decide, by decide, by decide, by decide, by decide, by decide⟩
